import Mathlib

/-!
# Verification of the `intervaltree` package

A shallow embedding of `intervaltree.go` (package `intervaltree`): a centered
interval tree with an auxiliary ordered point index, answering
point-containment (`Containing`) and range-intersection (`Intersecting`)
queries over a static collection of intervals.

Machine integers (`int`) carry no arithmetic here beyond comparison, so they
are embedded as `Int`. Go intervals are handled through pointers
(`*Interval`); pointer identity is embedded as an `id : Nat` field (the
opaque `Payload` is never inspected by the code and is subsumed by `id`).

The repository depends on two tiny external libraries that are not part of
this repository: `github.com/ag0st/binarytree` (a plain binary tree with
`Root/Insert/Paste/Left/Right/Consult/IsBottom`) and `github.com/ag0st/bst`
(a balanced BST built from a sorted slice, with `IntervalSearch`). The
binary tree is embedded as the inductive `BinaryTree`; the BST is embedded
as the sorted fused point list it is built from, with `IntervalSearch`
modelled from the spec (see `intervalSearch`).
-/

namespace intervaltree

/-- The `Interval` struct of `intervaltree.go`. `Start`/`End` are the bounds
(`Start <= End` intended but not enforced by the type); `id` stands for the
pointer identity of the Go `*Interval` (distinct entities have distinct
`id`), subsuming the opaque `Payload`. -/
structure Interval where
  Start : Int
  End : Int
  id : Nat
deriving DecidableEq, Repr

/-- `Interval.lessStart` of `intervaltree.go`: ascending by `Start`, ties
broken ascending by `End`. -/
def lessStart (a b : Interval) : Bool :=
  if a.Start = b.Start then decide (a.End < b.End) else decide (a.Start < b.Start)

/-- `Interval.lessEnd` of `intervaltree.go`: descending by `End`, ties broken
descending by `Start`. -/
def lessEnd (a b : Interval) : Bool :=
  if a.End = b.End then decide (b.Start < a.Start) else decide (b.End < a.End)

/-- The non-strict order underlying Go's `sort.SliceStable` with `lessStart`:
`a` may come before `b` exactly when `lessStart b a` is false. -/
def leStart (a b : Interval) : Prop := lessStart b a = false

/-- The non-strict order underlying Go's `sort.SliceStable` with `lessEnd`. -/
def leEnd (a b : Interval) : Prop := lessEnd b a = false

instance : DecidableRel leStart :=
  fun a b => inferInstanceAs (Decidable (lessStart b a = false))

instance : DecidableRel leEnd :=
  fun a b => inferInstanceAs (Decidable (lessEnd b a = false))

theorem lessStart_iff {a b : Interval} :
    lessStart a b = true ↔ a.Start < b.Start ∨ (a.Start = b.Start ∧ a.End < b.End) := by
  unfold lessStart
  by_cases h : a.Start = b.Start <;> simp [h]

theorem lessEnd_iff {a b : Interval} :
    lessEnd a b = true ↔ b.End < a.End ∨ (a.End = b.End ∧ b.Start < a.Start) := by
  unfold lessEnd
  by_cases h : a.End = b.End <;> simp [h]

instance : IsTotal Interval leStart where
  total a b := by
    unfold leStart
    cases hb : lessStart b a with
    | false => exact Or.inl rfl
    | true =>
        refine Or.inr (Bool.eq_false_iff.mpr fun hab => ?_)
        rw [lessStart_iff] at hab hb
        omega

instance : IsTrans Interval leStart where
  trans a b c hab hbc := by
    unfold leStart at hab hbc ⊢
    refine Bool.eq_false_iff.mpr fun hca => ?_
    replace hab := Bool.eq_false_iff.mp hab
    replace hbc := Bool.eq_false_iff.mp hbc
    simp only [ne_eq, lessStart_iff] at hab hbc
    rw [lessStart_iff] at hca
    omega

instance : IsTotal Interval leEnd where
  total a b := by
    unfold leEnd
    cases hb : lessEnd b a with
    | false => exact Or.inl rfl
    | true =>
        refine Or.inr (Bool.eq_false_iff.mpr fun hab => ?_)
        rw [lessEnd_iff] at hab hb
        omega

instance : IsTrans Interval leEnd where
  trans a b c hab hbc := by
    unfold leEnd at hab hbc ⊢
    refine Bool.eq_false_iff.mpr fun hca => ?_
    replace hab := Bool.eq_false_iff.mp hab
    replace hbc := Bool.eq_false_iff.mp hbc
    simp only [ne_eq, lessEnd_iff] at hab hbc
    rw [lessEnd_iff] at hca
    omega

/-- The `elt` struct of `intervaltree.go`: the payload of one interval-tree
node — the node's intervals sorted two ways, plus the node's median. -/
structure elt where
  leftSorted : List Interval
  rightSorted : List Interval
  xMid : Int
deriving DecidableEq, Repr

/-- `newElt` of `intervaltree.go`: copies `intervals` twice and stable-sorts
one copy by `lessStart` and the other by `lessEnd` (Go `sort.SliceStable`;
`List.insertionSort` is a stable sort with the same comparison, hence
produces the identical list). -/
def newElt (intervals : List Interval) (xMid : Int) : elt where
  leftSorted := List.insertionSort leStart intervals
  rightSorted := List.insertionSort leEnd intervals
  xMid := xMid

/-- `elt.intersecting` of `intervaltree.go`: the node-local scan. For
`x > xMid` it walks `rightSorted` and stops at the first interval with
`End < x`; for `x < xMid` it walks `leftSorted` and stops at the first
interval with `Start > x`; for `x == xMid` it returns all intervals. -/
def elt.intersecting (e : elt) (x : Int) : List Interval :=
  if e.xMid < x then
    e.rightSorted.takeWhile (fun i => !decide (i.End < x))
  else if x < e.xMid then
    e.leftSorted.takeWhile (fun i => !decide (x < i.Start))
  else
    e.leftSorted

/-- The external `binarytree.BinaryTree` as used by `intervaltree.go`: a
plain binary tree whose nodes carry an `elt`; `bottom` is a position where
`Iterator.IsBottom` holds (the empty tree's root, or below a leaf). -/
inductive BinaryTree where
  | bottom : BinaryTree
  | node : BinaryTree → elt → BinaryTree → BinaryTree
deriving DecidableEq, Repr

/-- Package-level `intersecting` of `intervaltree.go`: collects the node's
local matches, then recurses right when `x > xMid`, left when `x < xMid`,
and stops when `x == xMid`. -/
def intersecting : BinaryTree → Int → List Interval
  | BinaryTree.bottom, _ => []
  | BinaryTree.node l e r, x =>
      e.intersecting x ++
        (if e.xMid < x then intersecting r x
         else if x < e.xMid then intersecting l x
         else [])

/-- The median computation of `fromIntervals`: collect the `2n` boundary
values (`allPoints[i] = Start`, `allPoints[n+i] = End`), sort ascending
(`sort.Ints`), and take the value at index `n`. -/
def xMidOf (intervals : List Interval) : Int :=
  (List.insertionSort (· ≤ ·)
      (intervals.map (fun i => i.Start) ++ intervals.map (fun i => i.End))).getD
    intervals.length 0

/-- The `left` group of the partition loop in `fromIntervals`:
intervals with `End < xMid`. -/
def partitionLeft (intervals : List Interval) (xMid : Int) : List Interval :=
  intervals.filter (fun i => decide (i.End < xMid))

/-- The `right` group of the partition loop in `fromIntervals`: intervals
reaching the `else if` branch (`End >= xMid`) with `Start > xMid`. -/
def partitionRight (intervals : List Interval) (xMid : Int) : List Interval :=
  intervals.filter (fun i => !decide (i.End < xMid) && decide (xMid < i.Start))

/-- The `mid` group of the partition loop in `fromIntervals`: intervals
falling through to the `else` branch (`End >= xMid` and `Start <= xMid`). -/
def partitionMid (intervals : List Interval) (xMid : Int) : List Interval :=
  intervals.filter (fun i => !decide (i.End < xMid) && !decide (xMid < i.Start))

/-- `fromIntervals` of `intervaltree.go`, with an explicit recursion budget:
Go recursion has no structural bound, so the embedding spends one unit of
`fuel` per recursive layer and returns `none` if the budget runs out (the
termination theorem shows `length + 1` always suffices for valid input).
The `log.Fatalln` guard on `|mid| + |right| + |left| == |intervals|` is
embedded as `none`. The Go code inserts `newElt(mid, xMid)` at the root and
pastes the recursively built trees on the left and right. -/
def fromIntervalsFuel : Nat → List Interval → Option BinaryTree
  | _, [] => some BinaryTree.bottom
  | 0, _ :: _ => none
  | fuel + 1, a :: rest =>
      if (partitionMid (a :: rest) (xMidOf (a :: rest))).length +
           (partitionRight (a :: rest) (xMidOf (a :: rest))).length +
           (partitionLeft (a :: rest) (xMidOf (a :: rest))).length ≠
          (a :: rest).length then
        none
      else
        match fromIntervalsFuel fuel (partitionLeft (a :: rest) (xMidOf (a :: rest))),
            fromIntervalsFuel fuel (partitionRight (a :: rest) (xMidOf (a :: rest))) with
        | some l, some r =>
            some (BinaryTree.node l
              (newElt (partitionMid (a :: rest) (xMidOf (a :: rest))) (xMidOf (a :: rest))) r)
        | _, _ => none

/-- `fromIntervals` of `intervaltree.go` (budgeted; see `fromIntervalsFuel`). -/
def fromIntervals (intervals : List Interval) : Option BinaryTree :=
  fromIntervalsFuel (intervals.length + 1) intervals

/-- The `Point` struct of `intervaltree.go`: a boundary value together with
the intervals owning it. -/
structure Point where
  x : Int
  ptrs : List Interval
deriving DecidableEq, Repr

/-- `Point.fusion` of `intervaltree.go`: append the other point's owners. -/
def Point.fusion (p p2 : Point) : Point :=
  { p with ptrs := p.ptrs ++ p2.ptrs }

/-- The order used by `sort.Slice` in `buildBST` (`CompareTo < 0`, i.e.
ascending by `x`; the Go sort is unstable, so any `≤`-sorted permutation is
a possible outcome — `insertionSort` below picks one of them, and no claim
depends on the order among equal values). -/
def pointLe (p q : Point) : Prop := p.x ≤ q.x

instance : DecidableRel pointLe := fun p q => inferInstanceAs (Decidable (p.x ≤ q.x))

instance : IsTotal Point pointLe where
  total p q := Int.le_total p.x q.x

instance : IsTrans Point pointLe where
  trans _ _ _ h h' := le_trans h h'

/-- `removeDuplicateByFusion` of `intervaltree.go`: walk the list and fuse
adjacent points with equal value (`CompareTo == 0`) into one point whose
owners are concatenated in order. The Go loop accumulates left-to-right,
fusing each point into the last one kept; this recursion collapses exactly
the same maximal runs of adjacent equal values with the same owner order. -/
def removeDuplicateByFusion : List Point → List Point
  | [] => []
  | p :: rest =>
      match removeDuplicateByFusion rest with
      | [] => [p]
      | q :: qs => if p.x = q.x then p.fusion q :: qs else p :: q :: qs

/-- `buildBST` of `intervaltree.go`: build the `2n` boundary points
(`allPoints[i] = {Start, [in]}`, `allPoints[n+i] = {End, [in]}`), sort by
value, fuse duplicates, and hand the result to `bst.NewBSTReady`. The
external BST is embedded as the sorted fused list it is built from. -/
def buildBST (intervals : List Interval) : List Point :=
  if intervals.isEmpty then []
  else
    removeDuplicateByFusion
      (List.insertionSort pointLe
        (intervals.map (fun i => Point.mk i.Start [i]) ++
         intervals.map (fun i => Point.mk i.End [i])))

/-- Modelled from the spec: `bst.IntervalSearch` of the external
`github.com/ag0st/bst` library (not part of this repository). Per §4.2 the
range search "returns all Points whose value lies in the closed interval
[lo, hi]"; on the embedded sorted point list that is a filter. -/
def intervalSearch (points : List Point) (lo hi : Int) : List Point :=
  points.filter (fun p => decide (lo ≤ p.x) && decide (p.x ≤ hi))

/-- The `IntervalTree` struct of `intervaltree.go`: the centered interval
tree plus the point BST (embedded as its sorted fused point list). -/
structure IntervalTree where
  tree : BinaryTree
  bst : List Point
deriving DecidableEq, Repr

/-- `NewIntervalTree` of `intervaltree.go` (budgeted through
`fromIntervals`; `buildBST` is total). -/
def NewIntervalTree (intervals : List Interval) : Option IntervalTree :=
  (fromIntervals intervals).map (fun tr => IntervalTree.mk tr (buildBST intervals))

/-- `IntervalTree.Containing` of `intervaltree.go`. -/
def IntervalTree.Containing (t : IntervalTree) (x : Int) : List Interval :=
  intersecting t.tree x

/-- `IntervalTree.Intersecting` of `intervaltree.go`: union the owners of
all BST points inside `[interval.Start, interval.End]` with the result of
`Containing(interval.Start)`, deduplicated through a set
(`map[*Interval]bool`; the Go function returns the set's elements in
unspecified map order, embedded as the `Finset` itself). -/
def IntervalTree.Intersecting (t : IntervalTree) (interval : Interval) : Finset Interval :=
  ((intervalSearch t.bst interval.Start interval.End).flatMap Point.ptrs).toFinset ∪
    (t.Containing interval.Start).toFinset

/-- The containment predicate `Start <= x <= End` used by the spec. -/
def containsPt (x : Int) (i : Interval) : Bool :=
  decide (i.Start ≤ x) && decide (x ≤ i.End)

/-! ## Partition lemmas -/

theorem mem_partitionLeft {intervals : List Interval} {xMid : Int} {i : Interval} :
    i ∈ partitionLeft intervals xMid ↔ i ∈ intervals ∧ i.End < xMid := by
  simp [partitionLeft]

theorem mem_partitionRight {intervals : List Interval} {xMid : Int} {i : Interval} :
    i ∈ partitionRight intervals xMid ↔ i ∈ intervals ∧ ¬i.End < xMid ∧ xMid < i.Start := by
  simp [partitionRight]

theorem mem_partitionMid {intervals : List Interval} {xMid : Int} {i : Interval} :
    i ∈ partitionMid intervals xMid ↔ i ∈ intervals ∧ ¬i.End < xMid ∧ ¬xMid < i.Start := by
  simp [partitionMid]

/-- The three partition groups of `fromIntervals` always cover the input:
the branch conditions are mutually exclusive and exhaustive. -/
theorem partition_length (intervals : List Interval) (xMid : Int) :
    (partitionLeft intervals xMid).length + (partitionMid intervals xMid).length +
      (partitionRight intervals xMid).length = intervals.length := by
  induction intervals with
  | nil => rfl
  | cons a rest ih =>
      unfold partitionLeft partitionMid partitionRight at *
      simp only [List.filter_cons]
      by_cases h1 : a.End < xMid <;> by_cases h2 : xMid < a.Start <;>
        simp [h1, h2] <;> omega

/-- The three partition groups are, taken together, a permutation of the
input list. -/
theorem partition_perm (intervals : List Interval) (xMid : Int) :
    (partitionLeft intervals xMid ++ partitionMid intervals xMid ++
      partitionRight intervals xMid).Perm intervals := by
  induction intervals with
  | nil => simp [partitionLeft, partitionMid, partitionRight]
  | cons a rest ih =>
      unfold partitionLeft partitionMid partitionRight at *
      simp only [List.filter_cons]
      by_cases h1 : a.End < xMid <;> by_cases h2 : xMid < a.Start
      · simp only [decide_eq_true h1, Bool.not_true, Bool.false_and, Bool.false_eq_true,
          if_true, if_false, List.cons_append]
        exact ih.cons a
      · simp only [decide_eq_true h1, Bool.not_true, Bool.false_and, Bool.false_eq_true,
          if_true, if_false, List.cons_append]
        exact ih.cons a
      · simp only [decide_eq_false h1, decide_eq_true h2, Bool.not_false, Bool.not_true,
          Bool.true_and, Bool.false_eq_true, if_true, if_false]
        exact List.perm_middle.trans (ih.cons a)
      · simp only [decide_eq_false h1, decide_eq_false h2, Bool.not_false, Bool.true_and,
          Bool.false_eq_true, if_true, if_false]
        exact (List.perm_middle.append_right _).trans (ih.cons a)

/-! ## Median lemmas -/

/-- The median is one of the boundary values of the input. -/
theorem xMidOf_mem_boundaries {intervals : List Interval} (h : intervals ≠ []) :
    ∃ i ∈ intervals, xMidOf intervals = i.Start ∨ xMidOf intervals = i.End := by
  have hpos : 0 < intervals.length := List.length_pos.mpr h
  have hlen :
      (List.insertionSort (· ≤ ·)
        (intervals.map (fun i => i.Start) ++ intervals.map (fun i => i.End))).length =
        intervals.length + intervals.length := by
    rw [(List.perm_insertionSort _ _).length_eq]
    simp
  have hlt :
      intervals.length <
        (List.insertionSort (· ≤ ·)
          (intervals.map (fun i => i.Start) ++ intervals.map (fun i => i.End))).length := by
    omega
  have hmem : xMidOf intervals ∈
      List.insertionSort (· ≤ ·)
        (intervals.map (fun i => i.Start) ++ intervals.map (fun i => i.End)) := by
    unfold xMidOf
    rw [List.getD_eq_getElem _ _ hlt]
    exact List.getElem_mem hlt
  rw [List.mem_insertionSort, List.mem_append] at hmem
  rcases hmem with hmem | hmem
  · obtain ⟨i, hi, hieq⟩ := List.mem_map.mp hmem
    exact ⟨i, hi, Or.inl hieq.symm⟩
  · obtain ⟨i, hi, hieq⟩ := List.mem_map.mp hmem
    exact ⟨i, hi, Or.inr hieq.symm⟩

/-- On valid input (`Start <= End`), the mid group at the median is never
empty: the interval owning the median boundary spans it. -/
theorem partitionMid_ne_nil {intervals : List Interval}
    (hval : ∀ i ∈ intervals, i.Start ≤ i.End) (h : intervals ≠ []) :
    partitionMid intervals (xMidOf intervals) ≠ [] := by
  obtain ⟨i, hi, hb⟩ := xMidOf_mem_boundaries h
  have hmem : i ∈ partitionMid intervals (xMidOf intervals) := by
    rw [mem_partitionMid]
    have := hval i hi
    exact ⟨hi, by omega, by omega⟩
  exact List.ne_nil_of_mem hmem

theorem partitionLeft_length_lt {intervals : List Interval}
    (hval : ∀ i ∈ intervals, i.Start ≤ i.End) (h : intervals ≠ []) :
    (partitionLeft intervals (xMidOf intervals)).length < intervals.length := by
  have hsum := partition_length intervals (xMidOf intervals)
  have hmid := List.length_pos.mpr (partitionMid_ne_nil hval h)
  omega

theorem partitionRight_length_lt {intervals : List Interval}
    (hval : ∀ i ∈ intervals, i.Start ≤ i.End) (h : intervals ≠ []) :
    (partitionRight intervals (xMidOf intervals)).length < intervals.length := by
  have hsum := partition_length intervals (xMidOf intervals)
  have hmid := List.length_pos.mpr (partitionMid_ne_nil hval h)
  omega

/-! ## Construction lemmas -/

theorem fromIntervalsFuel_nil (fuel : Nat) :
    fromIntervalsFuel fuel [] = some BinaryTree.bottom := by
  cases fuel <;> rfl

/-- Unfolding a successful non-empty construction step: the result is a node
holding `newElt mid xMid`, with subtrees built from the left and right
groups with one unit of fuel less. -/
theorem fromIntervalsFuel_some_cons {fuel : Nat} {a : Interval} {rest : List Interval}
    {tr : BinaryTree} (h : fromIntervalsFuel (fuel + 1) (a :: rest) = some tr) :
    ∃ l r,
      fromIntervalsFuel fuel (partitionLeft (a :: rest) (xMidOf (a :: rest))) = some l ∧
        fromIntervalsFuel fuel (partitionRight (a :: rest) (xMidOf (a :: rest))) = some r ∧
        tr = BinaryTree.node l
          (newElt (partitionMid (a :: rest) (xMidOf (a :: rest))) (xMidOf (a :: rest))) r := by
  unfold fromIntervalsFuel at h
  rw [if_neg (by have := partition_length (a :: rest) (xMidOf (a :: rest)); omega)] at h
  cases hl : fromIntervalsFuel fuel (partitionLeft (a :: rest) (xMidOf (a :: rest))) with
  | none => rw [hl] at h; simp at h
  | some l =>
      cases hr : fromIntervalsFuel fuel (partitionRight (a :: rest) (xMidOf (a :: rest))) with
      | none => rw [hl, hr] at h; simp at h
      | some r =>
          rw [hl, hr] at h
          simp only [Option.some.injEq] at h
          exact ⟨l, r, rfl, rfl, h.symm⟩

/-- On valid input, any fuel above the input length suffices: each recursive
call strictly shrinks the list, so construction terminates. -/
theorem fromIntervalsFuel_isSome :
    ∀ (fuel : Nat) (intervals : List Interval), (∀ i ∈ intervals, i.Start ≤ i.End) →
      intervals.length < fuel → (fromIntervalsFuel fuel intervals).isSome := by
  intro fuel
  induction fuel with
  | zero => intro intervals _ h; omega
  | succ fuel ih =>
      intro intervals hval h
      match intervals with
      | [] => rw [fromIntervalsFuel_nil]; rfl
      | a :: rest =>
          have hne : (a :: rest) ≠ ([] : List Interval) := List.cons_ne_nil a rest
          unfold fromIntervalsFuel
          rw [if_neg (by have := partition_length (a :: rest) (xMidOf (a :: rest)); omega)]
          have hvl : ∀ i ∈ partitionLeft (a :: rest) (xMidOf (a :: rest)), i.Start ≤ i.End :=
            fun i hi => hval i (mem_partitionLeft.mp hi).1
          have hvr : ∀ i ∈ partitionRight (a :: rest) (xMidOf (a :: rest)), i.Start ≤ i.End :=
            fun i hi => hval i (mem_partitionRight.mp hi).1
          have hfl : (partitionLeft (a :: rest) (xMidOf (a :: rest))).length < fuel := by
            have := partitionLeft_length_lt hval hne
            simp only [List.length_cons] at *
            omega
          have hfr : (partitionRight (a :: rest) (xMidOf (a :: rest))).length < fuel := by
            have := partitionRight_length_lt hval hne
            simp only [List.length_cons] at *
            omega
          obtain ⟨l, hl⟩ := Option.isSome_iff_exists.mp (ih _ hvl hfl)
          obtain ⟨r, hr⟩ := Option.isSome_iff_exists.mp (ih _ hvr hfr)
          rw [hl, hr]
          rfl

/-! ## Node-local scan lemmas -/

@[simp] theorem newElt_xMid (intervals : List Interval) (xMid : Int) :
    (newElt intervals xMid).xMid = xMid := rfl

@[simp] theorem newElt_leftSorted (intervals : List Interval) (xMid : Int) :
    (newElt intervals xMid).leftSorted = List.insertionSort leStart intervals := rfl

@[simp] theorem newElt_rightSorted (intervals : List Interval) (xMid : Int) :
    (newElt intervals xMid).rightSorted = List.insertionSort leEnd intervals := rfl

/-- The early `break` of a sorted scan loses nothing: on a list pairwise
ordered so that the scan predicate is downward closed, `takeWhile` agrees
with `filter`. -/
theorem takeWhile_eq_filter_of_pairwise {α : Type} {R : α → α → Prop} {p : α → Bool}
    {l : List α} (hl : l.Pairwise R) (hdown : ∀ a b, R a b → p b = true → p a = true) :
    l.takeWhile p = l.filter p := by
  induction l with
  | nil => rfl
  | cons a l ih =>
      rcases List.pairwise_cons.mp hl with ⟨ha, hl'⟩
      cases hp : p a with
      | true =>
          rw [List.takeWhile_cons_of_pos hp, List.filter_cons_of_pos hp, ih hl']
      | false =>
          rw [List.takeWhile_cons_of_neg (by simp [hp]),
            List.filter_cons_of_neg (by simp [hp])]
          refine (List.filter_eq_nil_iff.mpr fun b hb hpb => ?_).symm
          have := hdown a b (ha b hb) hpb
          simp [hp] at this

theorem pairwise_start_insertionSort (l : List Interval) :
    (List.insertionSort leStart l).Pairwise (fun a b => a.Start ≤ b.Start) := by
  refine (List.sorted_insertionSort leStart l).imp ?_
  intro a b hab
  have := Bool.eq_false_iff.mp hab
  rw [ne_eq, lessStart_iff] at this
  omega

theorem pairwise_end_insertionSort (l : List Interval) :
    (List.insertionSort leEnd l).Pairwise (fun a b => b.End ≤ a.End) := by
  refine (List.sorted_insertionSort leEnd l).imp ?_
  intro a b hab
  have := Bool.eq_false_iff.mp hab
  rw [ne_eq, lessEnd_iff] at this
  omega

/-- The node-local scan returns a permutation of the node's intervals that
contain `x`, provided every interval of the node spans the node's median. -/
theorem newElt_intersecting_perm (mids : List Interval) (xMid x : Int)
    (hmid : ∀ i ∈ mids, i.Start ≤ xMid ∧ xMid ≤ i.End) :
    ((newElt mids xMid).intersecting x).Perm (mids.filter (containsPt x)) := by
  unfold elt.intersecting
  simp only [newElt_xMid, newElt_leftSorted, newElt_rightSorted]
  by_cases hgt : xMid < x
  · rw [if_pos hgt]
    rw [takeWhile_eq_filter_of_pairwise (pairwise_end_insertionSort mids)
        (fun a b hab hpb => by simp at hpb ⊢; omega)]
    refine ((List.perm_insertionSort leEnd mids).filter _).trans ?_
    rw [List.filter_congr fun i hi => ?_]
    have h := hmid i hi
    have h1 : decide (i.Start ≤ x) = true := decide_eq_true (by omega)
    rw [containsPt, h1, Bool.true_and, ← decide_not, decide_eq_decide]
    omega
  · rw [if_neg hgt]
    by_cases hlt : x < xMid
    · rw [if_pos hlt]
      rw [takeWhile_eq_filter_of_pairwise (pairwise_start_insertionSort mids)
          (fun a b hab hpb => by simp at hpb ⊢; omega)]
      refine ((List.perm_insertionSort leStart mids).filter _).trans ?_
      rw [List.filter_congr fun i hi => ?_]
      have h := hmid i hi
      have h2 : decide (x ≤ i.End) = true := decide_eq_true (by omega)
      rw [containsPt, h2, Bool.and_true, ← decide_not, decide_eq_decide]
      omega
    · rw [if_neg hlt]
      rw [List.filter_eq_self.mpr fun i hi => ?_]
      · exact List.perm_insertionSort leStart mids
      · have h := hmid i hi
        rw [containsPt, Bool.and_eq_true, decide_eq_true_eq, decide_eq_true_eq]
        omega

/-! ## Tree query correctness -/

/-- The central correctness invariant: a tree built by `fromIntervals` from
any input list answers the point query with a permutation of the input
intervals containing `x`. -/
theorem intersecting_perm :
    ∀ (fuel : Nat) (intervals : List Interval) (tr : BinaryTree),
      fromIntervalsFuel fuel intervals = some tr → ∀ x : Int,
        (intersecting tr x).Perm (intervals.filter (containsPt x)) := by
  intro fuel
  induction fuel with
  | zero =>
      intro intervals tr h x
      match intervals with
      | [] =>
          rw [fromIntervalsFuel_nil, Option.some.injEq] at h
          subst h
          rfl
      | _ :: _ => exact absurd h (by rw [fromIntervalsFuel]; simp)
  | succ fuel ih =>
      intro intervals tr h x
      match intervals with
      | [] =>
          rw [fromIntervalsFuel_nil, Option.some.injEq] at h
          subst h
          rfl
      | a :: rest =>
          obtain ⟨l, r, hl, hr, htr⟩ := fromIntervalsFuel_some_cons h
          subst htr
          have hmid : ∀ i ∈ partitionMid (a :: rest) (xMidOf (a :: rest)),
              i.Start ≤ xMidOf (a :: rest) ∧ xMidOf (a :: rest) ≤ i.End := by
            intro i hi
            have := mem_partitionMid.mp hi
            exact ⟨by omega, by omega⟩
          have hnode := newElt_intersecting_perm
            (partitionMid (a :: rest) (xMidOf (a :: rest))) (xMidOf (a :: rest)) x hmid
          have hsplit :
              ((partitionLeft (a :: rest) (xMidOf (a :: rest))).filter (containsPt x) ++
                (partitionMid (a :: rest) (xMidOf (a :: rest))).filter (containsPt x) ++
                (partitionRight (a :: rest) (xMidOf (a :: rest))).filter (containsPt x)).Perm
                ((a :: rest).filter (containsPt x)) := by
            have := (partition_perm (a :: rest) (xMidOf (a :: rest))).filter (containsPt x)
            simpa [List.filter_append] using this
          simp only [intersecting, newElt_xMid]
          by_cases hgt : xMidOf (a :: rest) < x
          · rw [if_pos hgt]
            have hL : (partitionLeft (a :: rest) (xMidOf (a :: rest))).filter
                (containsPt x) = [] := by
              refine List.filter_eq_nil_iff.mpr fun i hi hpi => ?_
              have := mem_partitionLeft.mp hi
              rw [containsPt, Bool.and_eq_true, decide_eq_true_eq, decide_eq_true_eq] at hpi
              omega
            rw [hL, List.nil_append] at hsplit
            exact (hnode.append (ih _ r hr x)).trans hsplit
          · rw [if_neg hgt]
            by_cases hlt : x < xMidOf (a :: rest)
            · rw [if_pos hlt]
              have hR : (partitionRight (a :: rest) (xMidOf (a :: rest))).filter
                  (containsPt x) = [] := by
                refine List.filter_eq_nil_iff.mpr fun i hi hpi => ?_
                have := mem_partitionRight.mp hi
                rw [containsPt, Bool.and_eq_true, decide_eq_true_eq, decide_eq_true_eq] at hpi
                omega
              rw [hR, List.append_nil] at hsplit
              exact ((hnode.append (ih _ l hl x)).trans List.perm_append_comm).trans hsplit
            · rw [if_neg hlt]
              have hL : (partitionLeft (a :: rest) (xMidOf (a :: rest))).filter
                  (containsPt x) = [] := by
                refine List.filter_eq_nil_iff.mpr fun i hi hpi => ?_
                have := mem_partitionLeft.mp hi
                rw [containsPt, Bool.and_eq_true, decide_eq_true_eq, decide_eq_true_eq] at hpi
                omega
              have hR : (partitionRight (a :: rest) (xMidOf (a :: rest))).filter
                  (containsPt x) = [] := by
                refine List.filter_eq_nil_iff.mpr fun i hi hpi => ?_
                have := mem_partitionRight.mp hi
                rw [containsPt, Bool.and_eq_true, decide_eq_true_eq, decide_eq_true_eq] at hpi
                omega
              rw [hL, hR, List.nil_append, List.append_nil] at hsplit
              rw [List.append_nil]
              exact hnode.trans hsplit

/-- Destructing a successful facade construction. -/
theorem NewIntervalTree_some {intervals : List Interval} {t : IntervalTree}
    (h : NewIntervalTree intervals = some t) :
    fromIntervals intervals = some t.tree ∧ t.bst = buildBST intervals := by
  unfold NewIntervalTree at h
  cases hfi : fromIntervals intervals with
  | none => rw [hfi] at h; simp at h
  | some tr =>
      rw [hfi] at h
      simp only [Option.map_some', Option.some.injEq] at h
      subst h
      exact ⟨rfl, rfl⟩

/-- `Containing` is a permutation of the containing input intervals. -/
theorem Containing_perm {intervals : List Interval} {t : IntervalTree}
    (h : NewIntervalTree intervals = some t) (x : Int) :
    (t.Containing x).Perm (intervals.filter (containsPt x)) := by
  have := (NewIntervalTree_some h).1
  unfold fromIntervals at this
  exact intersecting_perm _ _ _ this x

/-! ## Structural invariants of the built tree -/

/-- The intervals of `intervals` that span `xMid` (`Start <= xMid <= End`),
in input order. -/
def spanFilter (intervals : List Interval) (xMid : Int) : List Interval :=
  intervals.filter (fun i => decide (i.Start ≤ xMid) && decide (xMid ≤ i.End))

theorem partitionMid_eq_spanFilter (intervals : List Interval) (xMid : Int) :
    partitionMid intervals xMid = spanFilter intervals xMid := by
  unfold partitionMid spanFilter
  refine List.filter_congr fun i _ => ?_
  cases h1 : decide (i.End < xMid) <;> cases h2 : decide (xMid < i.Start) <;>
    simp at h1 h2 <;>
    simp [decide_eq_true, h1, h2, decide_eq_true_eq]

/-- The per-node invariant, relative to the interval list handed to that
node during construction: the two sorted lists have equal length and both
are (as multisets) exactly the node-input intervals spanning the node's
median, and the children satisfy the same invariant for the left/right
partition groups. -/
def TreeInv : List Interval → BinaryTree → Prop
  | intervals, BinaryTree.bottom => intervals = []
  | intervals, BinaryTree.node l e r =>
      e.leftSorted.length = e.rightSorted.length ∧
        e.leftSorted.Perm (spanFilter intervals e.xMid) ∧
        e.rightSorted.Perm (spanFilter intervals e.xMid) ∧
        TreeInv (partitionLeft intervals e.xMid) l ∧
        TreeInv (partitionRight intervals e.xMid) r

/-- Concatenation of the mid-lists of every node of the tree. -/
def midLists : BinaryTree → List Interval
  | BinaryTree.bottom => []
  | BinaryTree.node l e r => e.leftSorted ++ midLists l ++ midLists r

theorem fromIntervalsFuel_TreeInv :
    ∀ (fuel : Nat) (intervals : List Interval) (tr : BinaryTree),
      fromIntervalsFuel fuel intervals = some tr → TreeInv intervals tr := by
  intro fuel
  induction fuel with
  | zero =>
      intro intervals tr h
      match intervals with
      | [] =>
          rw [fromIntervalsFuel_nil, Option.some.injEq] at h
          subst h
          rfl
      | _ :: _ => exact absurd h (by rw [fromIntervalsFuel]; simp)
  | succ fuel ih =>
      intro intervals tr h
      match intervals with
      | [] =>
          rw [fromIntervalsFuel_nil, Option.some.injEq] at h
          subst h
          rfl
      | a :: rest =>
          obtain ⟨l, r, hl, hr, htr⟩ := fromIntervalsFuel_some_cons h
          subst htr
          refine ⟨?_, ?_, ?_, ih _ l hl, ih _ r hr⟩
          · rw [newElt_leftSorted, newElt_rightSorted,
              (List.perm_insertionSort leStart _).length_eq,
              (List.perm_insertionSort leEnd _).length_eq]
          · rw [newElt_leftSorted, newElt_xMid, ← partitionMid_eq_spanFilter]
            exact List.perm_insertionSort leStart _
          · rw [newElt_rightSorted, newElt_xMid, ← partitionMid_eq_spanFilter]
            exact List.perm_insertionSort leEnd _

/-- Every input interval lands in the mid-list of some node, exactly
preserving multiplicity: the concatenated mid-lists are a permutation of
the input. -/
theorem midLists_perm :
    ∀ (fuel : Nat) (intervals : List Interval) (tr : BinaryTree),
      fromIntervalsFuel fuel intervals = some tr → (midLists tr).Perm intervals := by
  intro fuel
  induction fuel with
  | zero =>
      intro intervals tr h
      match intervals with
      | [] =>
          rw [fromIntervalsFuel_nil, Option.some.injEq] at h
          subst h
          rfl
      | _ :: _ => exact absurd h (by rw [fromIntervalsFuel]; simp)
  | succ fuel ih =>
      intro intervals tr h
      match intervals with
      | [] =>
          rw [fromIntervalsFuel_nil, Option.some.injEq] at h
          subst h
          rfl
      | a :: rest =>
          obtain ⟨l, r, hl, hr, htr⟩ := fromIntervalsFuel_some_cons h
          subst htr
          show ((newElt _ _).leftSorted ++ midLists l ++ midLists r).Perm (a :: rest)
          rw [newElt_leftSorted]
          refine (((List.perm_insertionSort leStart _).append (ih _ l hl)).append
            (ih _ r hr)).trans ?_
          refine (List.Perm.append_right _ List.perm_append_comm).trans ?_
          exact partition_perm (a :: rest) (xMidOf (a :: rest))

/-! ## Point-index lemmas -/

/-- The (value, owner) pairs stored across a point list, in order. This is
the fusion-invariant content of the point index. -/
def pointPairs (points : List Point) : List (Int × Interval) :=
  points.flatMap (fun p => p.ptrs.map (fun i => (p.x, i)))

/-- Fusing adjacent equal-valued points moves owners between points of the
same value, leaving the (value, owner) pairs unchanged. -/
theorem pointPairs_removeDuplicateByFusion (points : List Point) :
    pointPairs (removeDuplicateByFusion points) = pointPairs points := by
  induction points with
  | nil => rfl
  | cons p rest ih =>
      rw [removeDuplicateByFusion]
      cases hres : removeDuplicateByFusion rest with
      | nil =>
          simp only [hres]
          have hrest : pointPairs rest = [] := by rw [← ih, hres]; rfl
          simp only [pointPairs, List.flatMap_cons, List.flatMap_nil,
            List.append_nil] at hrest ⊢
          rw [hrest, List.append_nil]
      | cons q qs =>
          simp only [hres]
          have hrest : pointPairs (q :: qs) = pointPairs rest := by rw [← ih, hres]
          by_cases hx : p.x = q.x
          · rw [if_pos hx]
            simp only [pointPairs, List.flatMap_cons] at hrest ⊢
            rw [← hrest]
            simp only [Point.fusion, List.map_append]
            rw [hx]
            simp [List.append_assoc]
          · rw [if_neg hx]
            simp only [pointPairs, List.flatMap_cons] at hrest ⊢
            rw [← hrest]

theorem pointPairs_append (l1 l2 : List Point) :
    pointPairs (l1 ++ l2) = pointPairs l1 ++ pointPairs l2 := by
  simp [pointPairs]

theorem pointPairs_boundary_map (intervals : List Interval) (f : Interval → Int) :
    pointPairs (intervals.map (fun i => Point.mk (f i) [i])) =
      intervals.map (fun i => (f i, i)) := by
  induction intervals with
  | nil => rfl
  | cons a rest ih => simp [pointPairs, List.flatMap_cons] at ih ⊢; exact ih

/-- The pairs of the built point index are exactly the input boundary
pairs, up to order. -/
theorem pointPairs_buildBST (intervals : List Interval) :
    (pointPairs (buildBST intervals)).Perm
      (intervals.map (fun i => (i.Start, i)) ++ intervals.map (fun i => (i.End, i))) := by
  unfold buildBST
  by_cases h : intervals.isEmpty
  · rw [if_pos h]
    rw [List.isEmpty_iff] at h
    subst h
    rfl
  · rw [if_neg h]
    rw [pointPairs_removeDuplicateByFusion]
    refine ((List.perm_insertionSort pointLe _).flatMap_right _).trans ?_
    rw [show (fun p : Point => p.ptrs.map fun i => (p.x, i)) =
        (fun p : Point => List.map (fun i => (p.x, i)) p.ptrs) from rfl]
    rw [← pointPairs, pointPairs_append, pointPairs_boundary_map, pointPairs_boundary_map]

theorem mem_pointPairs {points : List Point} {v : Int} {i : Interval} :
    (v, i) ∈ pointPairs points ↔ ∃ p ∈ points, p.x = v ∧ i ∈ p.ptrs := by
  unfold pointPairs
  rw [List.mem_flatMap]
  constructor
  · rintro ⟨p, hp, hmem⟩
    obtain ⟨a, ha, heq⟩ := List.mem_map.mp hmem
    rw [Prod.mk.injEq] at heq
    exact ⟨p, hp, heq.1, heq.2 ▸ ha⟩
  · rintro ⟨p, hp, hx, hi⟩
    exact ⟨p, hp, List.mem_map.mpr ⟨i, hi, by rw [hx]⟩⟩

/-- Ownership characterization of the point index: interval `i` owns value
`v` iff `i` is an input interval and `v` is one of its two boundaries. -/
theorem mem_pointPairs_buildBST {intervals : List Interval} {v : Int} {i : Interval} :
    (v, i) ∈ pointPairs (buildBST intervals) ↔
      i ∈ intervals ∧ (v = i.Start ∨ v = i.End) := by
  rw [(pointPairs_buildBST intervals).mem_iff, List.mem_append, List.mem_map,
    List.mem_map]
  constructor
  · rintro (⟨j, hj, heq⟩ | ⟨j, hj, heq⟩) <;> rw [Prod.mk.injEq] at heq
    · exact ⟨heq.2 ▸ hj, Or.inl (heq.2 ▸ heq.1.symm)⟩
    · exact ⟨heq.2 ▸ hj, Or.inr (heq.2 ▸ heq.1.symm)⟩
  · rintro ⟨hi, hv | hv⟩
    · exact Or.inl ⟨i, hi, by rw [hv]⟩
    · exact Or.inr ⟨i, hi, by rw [hv]⟩

/-! ## Strict ordering of the fused point list -/

theorem removeDuplicateByFusion_cons_nil {p : Point} {rest : List Point}
    (hres : removeDuplicateByFusion rest = []) :
    removeDuplicateByFusion (p :: rest) = [p] := by
  rw [removeDuplicateByFusion]
  simp only [hres]

theorem removeDuplicateByFusion_cons_cons {p q : Point} {rest qs : List Point}
    (hres : removeDuplicateByFusion rest = q :: qs) :
    removeDuplicateByFusion (p :: rest) =
      if p.x = q.x then p.fusion q :: qs else p :: q :: qs := by
  rw [removeDuplicateByFusion]
  simp only [hres]

theorem removeDuplicateByFusion_x_mem {points : List Point} {q : Point}
    (hq : q ∈ removeDuplicateByFusion points) : ∃ p ∈ points, q.x = p.x := by
  induction points with
  | nil => cases hq
  | cons p rest ih =>
      cases hres : removeDuplicateByFusion rest with
      | nil =>
          rw [removeDuplicateByFusion_cons_nil hres] at hq
          simp only [List.mem_singleton] at hq
          exact ⟨p, List.mem_cons_self p rest, by rw [hq]⟩
      | cons q0 qs =>
          rw [removeDuplicateByFusion_cons_cons hres] at hq
          have hof : q ∈ removeDuplicateByFusion rest → ∃ p' ∈ p :: rest, q.x = p'.x :=
            fun hb => (ih hb).imp fun p' hp' => ⟨List.mem_cons_of_mem p hp'.1, hp'.2⟩
          by_cases hx : p.x = q0.x
          · rw [if_pos hx] at hq
            rcases List.mem_cons.mp hq with heq | hq'
            · exact ⟨p, List.mem_cons_self p rest, by rw [heq]; rfl⟩
            · exact hof (by rw [hres]; exact List.mem_cons_of_mem q0 hq')
          · rw [if_neg hx] at hq
            rcases List.mem_cons.mp hq with heq | hq'
            · exact ⟨p, List.mem_cons_self p rest, by rw [heq]⟩
            · exact hof (by rw [hres]; exact hq')

/-- Fusing a `≤`-sorted point list yields a strictly increasing point
list. -/
theorem removeDuplicateByFusion_pairwise {points : List Point}
    (h : points.Pairwise pointLe) :
    (removeDuplicateByFusion points).Pairwise (fun p q => p.x < q.x) := by
  induction points with
  | nil => exact List.Pairwise.nil
  | cons p rest ih =>
      rcases List.pairwise_cons.mp h with ⟨hp, hrest⟩
      cases hres : removeDuplicateByFusion rest with
      | nil =>
          rw [removeDuplicateByFusion_cons_nil hres]
          exact List.pairwise_singleton _ _
      | cons q qs =>
          rw [removeDuplicateByFusion_cons_cons hres]
          have hall := ih hrest
          rw [hres] at hall
          rcases List.pairwise_cons.mp hall with ⟨hq_qs, hqs⟩
          by_cases hx : p.x = q.x
          · rw [if_pos hx]
            refine List.pairwise_cons.mpr ⟨fun b hb => ?_, hqs⟩
            have h1 := hq_qs b hb
            show (p.fusion q).x < b.x
            simp only [Point.fusion]
            omega
          · rw [if_neg hx]
            obtain ⟨p', hp', hx'⟩ := removeDuplicateByFusion_x_mem
              (q := q) (by rw [hres]; exact List.mem_cons_self q qs)
            have h2 : p.x ≤ p'.x := hp p' hp'
            refine List.pairwise_cons.mpr ⟨fun b hb => ?_, hall⟩
            rcases List.mem_cons.mp hb with rfl | hb'
            · omega
            · have h1 := hq_qs b hb'
              omega

/-- The point list handed to the BST constructor is strictly increasing in
value: no two distinct points share a value. -/
theorem buildBST_pairwise (intervals : List Interval) :
    (buildBST intervals).Pairwise (fun p q => p.x < q.x) := by
  unfold buildBST
  by_cases h : intervals.isEmpty
  · rw [if_pos h]
    exact List.Pairwise.nil
  · rw [if_neg h]
    exact removeDuplicateByFusion_pairwise (List.sorted_insertionSort pointLe _)

/-! ## Query membership characterizations -/

theorem mem_Containing {intervals : List Interval} {t : IntervalTree}
    (h : NewIntervalTree intervals = some t) {x : Int} {i : Interval} :
    i ∈ t.Containing x ↔ i ∈ intervals ∧ i.Start ≤ x ∧ x ≤ i.End := by
  rw [(Containing_perm h x).mem_iff, List.mem_filter]
  simp [containsPt]

theorem mem_intervalSearch_owners {intervals : List Interval} {lo hi : Int} {i : Interval} :
    i ∈ (intervalSearch (buildBST intervals) lo hi).flatMap Point.ptrs ↔
      i ∈ intervals ∧ ((lo ≤ i.Start ∧ i.Start ≤ hi) ∨ (lo ≤ i.End ∧ i.End ≤ hi)) := by
  rw [List.mem_flatMap]
  constructor
  · rintro ⟨p, hp, hip⟩
    rw [intervalSearch, List.mem_filter] at hp
    have hb : lo ≤ p.x ∧ p.x ≤ hi := by
      have h2 := hp.2
      simp only [Bool.and_eq_true, decide_eq_true_eq] at h2
      exact h2
    have hpair : (p.x, i) ∈ pointPairs (buildBST intervals) :=
      mem_pointPairs.mpr ⟨p, hp.1, rfl, hip⟩
    rw [mem_pointPairs_buildBST] at hpair
    rcases hpair.2 with hv | hv
    · exact ⟨hpair.1, Or.inl ⟨by omega, by omega⟩⟩
    · exact ⟨hpair.1, Or.inr ⟨by omega, by omega⟩⟩
  · rintro ⟨hmem, hcase⟩
    rcases hcase with ⟨h1, h2⟩ | ⟨h1, h2⟩
    · have hpair : (i.Start, i) ∈ pointPairs (buildBST intervals) :=
        mem_pointPairs_buildBST.mpr ⟨hmem, Or.inl rfl⟩
      obtain ⟨p, hp, hx, hip⟩ := mem_pointPairs.mp hpair
      refine ⟨p, ?_, hip⟩
      rw [intervalSearch, List.mem_filter]
      refine ⟨hp, ?_⟩
      simp only [Bool.and_eq_true, decide_eq_true_eq]
      omega
    · have hpair : (i.End, i) ∈ pointPairs (buildBST intervals) :=
        mem_pointPairs_buildBST.mpr ⟨hmem, Or.inr rfl⟩
      obtain ⟨p, hp, hx, hip⟩ := mem_pointPairs.mp hpair
      refine ⟨p, ?_, hip⟩
      rw [intervalSearch, List.mem_filter]
      refine ⟨hp, ?_⟩
      simp only [Bool.and_eq_true, decide_eq_true_eq]
      omega

/-- Raw membership of the merged range query: an interval is returned iff
one of its boundaries lies in the query range (point-index step) or it
contains the query start (tree step). -/
theorem mem_Intersecting {intervals : List Interval} {t : IntervalTree}
    (h : NewIntervalTree intervals = some t) {q i : Interval} :
    i ∈ t.Intersecting q ↔
      i ∈ intervals ∧
        ((q.Start ≤ i.Start ∧ i.Start ≤ q.End) ∨ (q.Start ≤ i.End ∧ i.End ≤ q.End) ∨
          (i.Start ≤ q.Start ∧ q.Start ≤ i.End)) := by
  obtain ⟨htree, hbst⟩ := NewIntervalTree_some h
  unfold IntervalTree.Intersecting
  rw [Finset.mem_union, List.mem_toFinset, List.mem_toFinset, hbst,
    mem_intervalSearch_owners, mem_Containing h]
  tauto

/-! ## Owner counting in the point index -/

theorem filter_x_eq_of_pairwise {l : List Point} {p : Point}
    (hpw : l.Pairwise (fun a b => a.x < b.x)) (hp : p ∈ l) :
    l.filter (fun q => q.x == p.x) = [p] := by
  induction l with
  | nil => cases hp
  | cons a t ih =>
      rcases List.pairwise_cons.mp hpw with ⟨ha, ht⟩
      rcases List.mem_cons.mp hp with heq | hmem
      · subst heq
        have hnil : t.filter (fun q => q.x == p.x) = [] := by
          refine List.filter_eq_nil_iff.mpr fun b hb hbx => ?_
          have := ha b hb
          simp only [beq_iff_eq] at hbx
          omega
        rw [List.filter_cons_of_pos (by simp), hnil]
      · have hax : (a.x == p.x) = false := by
          have := ha p hmem
          simp only [beq_eq_false_iff_ne, ne_eq]
          omega
        simp only [List.filter_cons, hax, Bool.false_eq_true, if_false]
        exact ih ht hmem

theorem pointPairs_filter_ne {t : List Point} {w : Int} (h : ∀ b ∈ t, b.x ≠ w) :
    (pointPairs t).filter (fun vi => vi.1 == w) = [] := by
  refine List.filter_eq_nil_iff.mpr fun vi hvi hw => ?_
  obtain ⟨b, hb, hx, _⟩ := mem_pointPairs.mp (show (vi.1, vi.2) ∈ pointPairs t from hvi)
  simp only [beq_iff_eq] at hw
  exact h b hb (by rw [hx, hw])

/-- Inside a strictly increasing point list, the owners of a point are
exactly the stored pairs carrying that point's value. -/
theorem ptrs_pairs_of_pairwise {l : List Point} {p : Point}
    (hpw : l.Pairwise (fun a b => a.x < b.x)) (hp : p ∈ l) :
    p.ptrs.map (fun i => (p.x, i)) = (pointPairs l).filter (fun vi => vi.1 == p.x) := by
  induction l with
  | nil => cases hp
  | cons a t ih =>
      rcases List.pairwise_cons.mp hpw with ⟨ha, ht⟩
      simp only [pointPairs, List.flatMap_cons]
      rw [List.filter_append]
      rcases List.mem_cons.mp hp with heq | hmem
      · subst heq
        have h1 : (p.ptrs.map (fun i => (p.x, i))).filter (fun vi => vi.1 == p.x) =
            p.ptrs.map (fun i => (p.x, i)) := by
          refine List.filter_eq_self.mpr fun b hb => ?_
          obtain ⟨j, _, hj⟩ := List.mem_map.mp hb
          rw [← hj]
          simp
        have h2 : (pointPairs t).filter (fun vi => vi.1 == p.x) = [] :=
          pointPairs_filter_ne fun b hb => by have := ha b hb; omega
        rw [h1]
        rw [show (t.flatMap fun p => p.ptrs.map fun i => (p.x, i)) = pointPairs t from rfl,
          h2, List.append_nil]
      · have h1 : (a.ptrs.map (fun i => (a.x, i))).filter (fun vi => vi.1 == p.x) = [] := by
          refine List.filter_eq_nil_iff.mpr fun b hb hbx => ?_
          obtain ⟨j, _, hj⟩ := List.mem_map.mp hb
          rw [← hj] at hbx
          simp only [beq_iff_eq] at hbx
          have := ha p hmem
          omega
        rw [h1, List.nil_append]
        rw [show (t.flatMap fun p => p.ptrs.map fun i => (p.x, i)) = pointPairs t from rfl]
        exact ih ht hmem

theorem count_pairs_map (intervals : List Interval) (f : Interval → Int) (v : Int)
    (i : Interval) :
    @List.count _ instBEqOfDecidableEq (v, i) (intervals.map (fun j => (f j, j))) =
      if f i = v then intervals.count i else 0 := by
  induction intervals with
  | nil => simp
  | cons a rest ih =>
      have hbeq : ∀ (x y : Int × Interval),
          (@BEq.beq _ instBEqOfDecidableEq x y) = decide (x = y) := fun x y => rfl
      have hbeq2 : ∀ (x y : Interval), (x == y) = decide (x = y) := fun x y => rfl
      simp only [List.map_cons, List.count_cons, ih, hbeq, hbeq2, decide_eq_true_eq,
        Prod.mk.injEq]
      by_cases hai : i = a
      · subst hai
        by_cases hfv : f i = v
        · simp [hfv]
        · simp [hfv, fun h : v = f i => hfv h.symm]
      · have hne : a ≠ i := fun h => hai h.symm
        by_cases hfv : f i = v <;> simp [hfv, hne]

/-- `instBEqOfDecidableEq` is lawful; used to align counts elaborated at a
pinned instance with the library lemmas. -/
theorem lawfulBEq_ofDecidableEq {α : Type} [DecidableEq α] :
    @LawfulBEq α instBEqOfDecidableEq :=
  @LawfulBEq.mk _ instBEqOfDecidableEq (fun h => of_decide_eq_true h)
    (fun {a} => decide_eq_true rfl)

theorem countP_add_countP_of_exclusive {l : List Interval} {p q : Interval → Bool}
    (h : ∀ j ∈ l, (p j = true ∨ q j = true) ∧ ¬(p j = true ∧ q j = true)) :
    l.countP p + l.countP q = l.length := by
  induction l with
  | nil => rfl
  | cons a t ih =>
      rw [List.countP_cons, List.countP_cons, List.length_cons]
      have ha := h a (List.mem_cons_self a t)
      have ih' := ih fun j hj => h j (List.mem_cons_of_mem _ hj)
      by_cases hp : p a <;> by_cases hq : q a <;> simp [hp, hq] at ha ⊢ <;> omega

example : fromIntervals [] = some BinaryTree.bottom := rfl

example :
    NewIntervalTree [Interval.mk 1 3 0] =
      some
        (IntervalTree.mk
          (BinaryTree.node BinaryTree.bottom
            (elt.mk [Interval.mk 1 3 0] [Interval.mk 1 3 0] 3) BinaryTree.bottom)
          [Point.mk 1 [Interval.mk 1 3 0], Point.mk 3 [Interval.mk 1 3 0]]) := by
  decide

/-! ## Claims -/

/-- C1: for every finite list of pairwise-distinct intervals each with
`Start <= End` and every integer `x`, `Containing x` on the built index
returns exactly the input intervals with `Start <= x <= End`, and no
interval appears more than once in the result. -/
theorem claim_C1_containing_correct (intervals : List Interval) (t : IntervalTree)
    (x : Int) (i : Interval)
    (hval : ∀ j ∈ intervals, j.Start ≤ j.End) (hnd : intervals.Nodup)
    (hb : NewIntervalTree intervals = some t) :
    (t.Containing x).Nodup ∧
      (i ∈ t.Containing x ↔ i ∈ intervals ∧ i.Start ≤ x ∧ x ≤ i.End) :=
  ⟨(Containing_perm hb x).nodup_iff.mpr (hnd.filter _), mem_Containing hb⟩

/-- Witness for C1: the singleton index over `[1, 3]` queried at `2`. -/
theorem claim_C1_witness :
    ((IntervalTree.mk
          (BinaryTree.node BinaryTree.bottom
            (elt.mk [Interval.mk 1 3 0] [Interval.mk 1 3 0] 3) BinaryTree.bottom)
          [Point.mk 1 [Interval.mk 1 3 0],
            Point.mk 3 [Interval.mk 1 3 0]]).Containing 2).Nodup ∧
      (Interval.mk 1 3 0 ∈
          (IntervalTree.mk
            (BinaryTree.node BinaryTree.bottom
              (elt.mk [Interval.mk 1 3 0] [Interval.mk 1 3 0] 3) BinaryTree.bottom)
            [Point.mk 1 [Interval.mk 1 3 0],
              Point.mk 3 [Interval.mk 1 3 0]]).Containing 2 ↔
        Interval.mk 1 3 0 ∈ [Interval.mk 1 3 0] ∧ (1 : Int) ≤ 2 ∧ (2 : Int) ≤ 3) :=
  claim_C1_containing_correct [Interval.mk 1 3 0]
    (IntervalTree.mk
      (BinaryTree.node BinaryTree.bottom
        (elt.mk [Interval.mk 1 3 0] [Interval.mk 1 3 0] 3) BinaryTree.bottom)
      [Point.mk 1 [Interval.mk 1 3 0], Point.mk 3 [Interval.mk 1 3 0]])
    2 (Interval.mk 1 3 0) (by decide) (by decide) (by decide)

/-- C2: for every finite list of pairwise-distinct intervals each with
`Start <= End` and every query interval with `Start <= End`,
`Intersecting` returns exactly (as a set, hence duplicate-free) the input
intervals with `Start <= hi` and `lo <= End`, covering partial overlap,
containment and enclosure. -/
theorem claim_C2_intersecting_correct (intervals : List Interval) (t : IntervalTree)
    (q i : Interval)
    (hval : ∀ j ∈ intervals, j.Start ≤ j.End) (hnd : intervals.Nodup)
    (hq : q.Start ≤ q.End) (hb : NewIntervalTree intervals = some t) :
    i ∈ t.Intersecting q ↔ i ∈ intervals ∧ i.Start ≤ q.End ∧ q.Start ≤ i.End := by
  rw [mem_Intersecting hb]
  constructor
  · rintro ⟨hmem, hcase⟩
    have := hval i hmem
    exact ⟨hmem, by omega⟩
  · rintro ⟨hmem, h1, h2⟩
    have := hval i hmem
    exact ⟨hmem, by omega⟩

/-- Witness for C2: the singleton index over `[1, 3]` queried with the
range `[2, 4]`. -/
theorem claim_C2_witness :
    Interval.mk 1 3 0 ∈
        (IntervalTree.mk
          (BinaryTree.node BinaryTree.bottom
            (elt.mk [Interval.mk 1 3 0] [Interval.mk 1 3 0] 3) BinaryTree.bottom)
          [Point.mk 1 [Interval.mk 1 3 0],
            Point.mk 3 [Interval.mk 1 3 0]]).Intersecting (Interval.mk 2 4 5) ↔
      Interval.mk 1 3 0 ∈ [Interval.mk 1 3 0] ∧ (1 : Int) ≤ 4 ∧ (2 : Int) ≤ 3 :=
  claim_C2_intersecting_correct [Interval.mk 1 3 0]
    (IntervalTree.mk
      (BinaryTree.node BinaryTree.bottom
        (elt.mk [Interval.mk 1 3 0] [Interval.mk 1 3 0] 3) BinaryTree.bottom)
      [Point.mk 1 [Interval.mk 1 3 0], Point.mk 3 [Interval.mk 1 3 0]])
    (Interval.mk 2 4 5) (Interval.mk 1 3 0) (by decide) (by decide) (by decide) (by decide)

/-- C3: on valid input (`Start <= End` throughout) the recursive
construction terminates: for non-empty input the mid group at the rank-n
median is non-empty, so both recursive calls receive strictly fewer
intervals, and the budgeted `fromIntervals` (and hence `NewIntervalTree`)
succeeds. -/
theorem claim_C3_construction_terminates (intervals : List Interval)
    (hval : ∀ i ∈ intervals, i.Start ≤ i.End) :
    (intervals ≠ [] →
        partitionMid intervals (xMidOf intervals) ≠ [] ∧
          (partitionLeft intervals (xMidOf intervals)).length < intervals.length ∧
          (partitionRight intervals (xMidOf intervals)).length < intervals.length) ∧
      (fromIntervals intervals).isSome ∧ (NewIntervalTree intervals).isSome := by
  have hsome : (fromIntervals intervals).isSome :=
    fromIntervalsFuel_isSome _ _ hval (by omega)
  refine ⟨fun hne => ⟨partitionMid_ne_nil hval hne, partitionLeft_length_lt hval hne,
    partitionRight_length_lt hval hne⟩, hsome, ?_⟩
  obtain ⟨tr, htr⟩ := Option.isSome_iff_exists.mp hsome
  unfold NewIntervalTree
  rw [htr]
  rfl

/-- Witness for C3 at the singleton input `[1, 3]`. -/
theorem claim_C3_witness :
    (([Interval.mk 1 3 0] : List Interval) ≠ [] →
        partitionMid [Interval.mk 1 3 0] (xMidOf [Interval.mk 1 3 0]) ≠ [] ∧
          (partitionLeft [Interval.mk 1 3 0] (xMidOf [Interval.mk 1 3 0])).length <
            ([Interval.mk 1 3 0] : List Interval).length ∧
          (partitionRight [Interval.mk 1 3 0] (xMidOf [Interval.mk 1 3 0])).length <
            ([Interval.mk 1 3 0] : List Interval).length) ∧
      (fromIntervals [Interval.mk 1 3 0]).isSome ∧
      (NewIntervalTree [Interval.mk 1 3 0]).isSome :=
  claim_C3_construction_terminates [Interval.mk 1 3 0] (by decide)

/-- C4 counterexample: one valid interval with `Start = End = 0` (so N = 1
pairwise-distinct intervals sharing the boundary value 0) produces one
point at 0 whose owners list has 2 entries — the interval appears twice,
refuting "exactly N entries, each contributing interval exactly once". -/
theorem claim_C4_counterexample :
    ([Interval.mk 0 0 0] : List Interval).Nodup ∧
      (∀ j ∈ ([Interval.mk 0 0 0] : List Interval), j.Start ≤ j.End) ∧
      (∀ j ∈ ([Interval.mk 0 0 0] : List Interval), j.Start = 0 ∨ j.End = 0) ∧
      buildBST [Interval.mk 0 0 0] =
        [Point.mk 0 [Interval.mk 0 0 0, Interval.mk 0 0 0]] ∧
      ¬(Point.mk 0 [Interval.mk 0 0 0, Interval.mk 0 0 0]).ptrs.length = 1 ∧
      (Point.mk 0 [Interval.mk 0 0 0, Interval.mk 0 0 0]).ptrs.count
          (Interval.mk 0 0 0) = 2 := by
  decide

/-- C4 (amended): for N pairwise-distinct intervals all sharing the
boundary value `v`, none of which is degenerate at `v`
(`Start = End = v`), the built point index has exactly one point valued
`v`, and that point's owners list has exactly N entries, containing each
contributing interval exactly once. -/
theorem claim_C4_amended (intervals : List Interval) (v : Int) (i : Interval) (p : Point)
    (hnd : intervals.Nodup)
    (hshare : ∀ j ∈ intervals, j.Start = v ∨ j.End = v)
    (hdeg : ∀ j ∈ intervals, ¬(j.Start = v ∧ j.End = v))
    (hi : i ∈ intervals) (hp : p ∈ buildBST intervals) (hpv : p.x = v) :
    ((buildBST intervals).filter (fun b => b.x == v)).length = 1 ∧
      p.ptrs.length = intervals.length ∧ p.ptrs.count i = 1 := by
  subst hpv
  have hpw := buildBST_pairwise intervals
  have hfilter := filter_x_eq_of_pairwise hpw hp
  have hpairs := ptrs_pairs_of_pairwise hpw hp
  refine ⟨by rw [hfilter]; rfl, ?_, ?_⟩
  · have hlen : p.ptrs.length =
        ((pointPairs (buildBST intervals)).filter (fun vi => vi.1 == p.x)).length := by
      rw [← hpairs, List.length_map]
    rw [hlen, ((pointPairs_buildBST intervals).filter _).length_eq, List.filter_append,
      List.length_append, ← List.countP_eq_length_filter, ← List.countP_eq_length_filter,
      List.countP_map, List.countP_map]
    refine countP_add_countP_of_exclusive fun j hj => ?_
    have h1 := hshare j hj
    have h2 := hdeg j hj
    constructor
    · rcases h1 with h | h
      · exact Or.inl (by simp [Function.comp, h])
      · exact Or.inr (by simp [Function.comp, h])
    · rintro ⟨ha, hb⟩
      simp only [Function.comp, beq_iff_eq] at ha hb
      exact h2 ⟨ha, hb⟩
  · have hinj : Function.Injective (fun j : Interval => (p.x, j)) := fun a b hab =>
      congrArg Prod.snd hab
    have hstep1 : p.ptrs.count i =
        @List.count _ instBEqOfDecidableEq (p.x, i)
          ((pointPairs (buildBST intervals)).filter (fun vi => vi.1 == p.x)) := by
      rw [← hpairs]
      exact (List.count_map_of_injective p.ptrs (fun j => (p.x, j)) hinj i).symm
    have hstep2 : @List.count _ instBEqOfDecidableEq (p.x, i)
          ((pointPairs (buildBST intervals)).filter (fun vi => vi.1 == p.x)) =
        @List.count _ instBEqOfDecidableEq (p.x, i) (pointPairs (buildBST intervals)) :=
      @List.count_filter (Int × Interval) instBEqOfDecidableEq lawfulBEq_ofDecidableEq _ _ _ (by simp)
    have hstep3 : @List.count _ instBEqOfDecidableEq (p.x, i)
          (pointPairs (buildBST intervals)) =
        @List.count _ instBEqOfDecidableEq (p.x, i)
          (intervals.map (fun j => (j.Start, j)) ++ intervals.map (fun j => (j.End, j))) :=
      (pointPairs_buildBST intervals).count_eq _
    have hstep4 : @List.count _ instBEqOfDecidableEq (p.x, i)
          (intervals.map (fun j => (j.Start, j)) ++ intervals.map (fun j => (j.End, j))) =
        @List.count _ instBEqOfDecidableEq (p.x, i)
            (intervals.map (fun j => (j.Start, j))) +
          @List.count _ instBEqOfDecidableEq (p.x, i)
            (intervals.map (fun j => (j.End, j))) :=
      @List.count_append (Int × Interval) instBEqOfDecidableEq _ _ _
    rw [hstep1, hstep2, hstep3, hstep4, count_pairs_map, count_pairs_map,
      List.count_eq_one_of_mem hnd hi]
    have h1 := hshare i hi
    have h2 := hdeg i hi
    rcases h1 with h | h
    · rw [if_pos h, if_neg fun h' => h2 ⟨h, h'⟩]
    · rw [if_neg fun h' => h2 ⟨h', h⟩, if_pos h]

/-- Witness for the amended C4: intervals `[5, 9]` and `[2, 5]` share the
boundary value 5, each once. -/
theorem claim_C4_witness :
    ((buildBST [Interval.mk 5 9 0, Interval.mk 2 5 1]).filter
        (fun b => b.x == (5 : Int))).length = 1 ∧
      (Point.mk 5 [Interval.mk 5 9 0, Interval.mk 2 5 1]).ptrs.length =
        ([Interval.mk 5 9 0, Interval.mk 2 5 1] : List Interval).length ∧
      (Point.mk 5 [Interval.mk 5 9 0, Interval.mk 2 5 1]).ptrs.count
        (Interval.mk 5 9 0) = 1 :=
  claim_C4_amended [Interval.mk 5 9 0, Interval.mk 2 5 1] 5 (Interval.mk 5 9 0)
    (Point.mk 5 [Interval.mk 5 9 0, Interval.mk 2 5 1])
    (by decide) (by decide) (by decide) (by decide) (by decide) (by decide)

/-- C5: every node of the built tree stores equally long `leftSorted` and
`rightSorted` lists, both exactly (as multisets) the intervals handed to
that node that span its median (`TreeInv` threads the node inputs), and
every input interval lands in the mid-list of exactly one node. -/
theorem claim_C5_partition_invariant (intervals : List Interval) (t : IntervalTree)
    (i : Interval)
    (hval : ∀ j ∈ intervals, j.Start ≤ j.End) (hnd : intervals.Nodup)
    (hb : NewIntervalTree intervals = some t) :
    TreeInv intervals t.tree ∧ (midLists t.tree).Perm intervals ∧
      (i ∈ intervals → (midLists t.tree).count i = 1) := by
  have htree := (NewIntervalTree_some hb).1
  unfold fromIntervals at htree
  refine ⟨fromIntervalsFuel_TreeInv _ _ _ htree, midLists_perm _ _ _ htree, fun hi => ?_⟩
  rw [(midLists_perm _ _ _ htree).count_eq]
  exact List.count_eq_one_of_mem hnd hi

/-- Witness for C5 on the singleton index over `[1, 3]`. -/
theorem claim_C5_witness :
    TreeInv [Interval.mk 1 3 0]
        (IntervalTree.mk
          (BinaryTree.node BinaryTree.bottom
            (elt.mk [Interval.mk 1 3 0] [Interval.mk 1 3 0] 3) BinaryTree.bottom)
          [Point.mk 1 [Interval.mk 1 3 0], Point.mk 3 [Interval.mk 1 3 0]]).tree ∧
      (midLists
          (IntervalTree.mk
            (BinaryTree.node BinaryTree.bottom
              (elt.mk [Interval.mk 1 3 0] [Interval.mk 1 3 0] 3) BinaryTree.bottom)
            [Point.mk 1 [Interval.mk 1 3 0],
              Point.mk 3 [Interval.mk 1 3 0]]).tree).Perm [Interval.mk 1 3 0] ∧
      (Interval.mk 1 3 0 ∈ ([Interval.mk 1 3 0] : List Interval) →
        (midLists
            (IntervalTree.mk
              (BinaryTree.node BinaryTree.bottom
                (elt.mk [Interval.mk 1 3 0] [Interval.mk 1 3 0] 3) BinaryTree.bottom)
              [Point.mk 1 [Interval.mk 1 3 0],
                Point.mk 3 [Interval.mk 1 3 0]]).tree).count (Interval.mk 1 3 0) = 1) :=
  claim_C5_partition_invariant [Interval.mk 1 3 0]
    (IntervalTree.mk
      (BinaryTree.node BinaryTree.bottom
        (elt.mk [Interval.mk 1 3 0] [Interval.mk 1 3 0] 3) BinaryTree.bottom)
      [Point.mk 1 [Interval.mk 1 3 0], Point.mk 3 [Interval.mk 1 3 0]])
    (Interval.mk 1 3 0) (by decide) (by decide) (by decide)

/-- C6: at every recursive call (any input list, any median) the three
partition groups sum to the input length, so the `log.Fatalln` branch
guarding `|mid| + |right| + |left| == |intervals|` is unreachable. -/
theorem claim_C6_partition_sum (intervals : List Interval) (xMid : Int) :
    (partitionLeft intervals xMid).length + (partitionMid intervals xMid).length +
      (partitionRight intervals xMid).length = intervals.length :=
  partition_length intervals xMid

/-- C7: the fused point sequence handed to the balanced-BST constructor is
strictly increasing in value — no two distinct points share a value. -/
theorem claim_C7_points_strictly_increasing (intervals : List Interval) :
    (buildBST intervals).Pairwise (fun p q => p.x < q.x) :=
  buildBST_pairwise intervals

/-- C8: building from the empty interval list succeeds (no error), and
every query returns an empty result: `Containing x = []` for all `x` and
`Intersecting q = ∅` for every query interval (in particular all
`lo <= hi`). -/
theorem claim_C8_empty_input_queries :
    NewIntervalTree ([] : List Interval) =
        some (IntervalTree.mk BinaryTree.bottom []) ∧
      (∀ x : Int, (IntervalTree.mk BinaryTree.bottom []).Containing x = []) ∧
      (∀ q : Interval, (IntervalTree.mk BinaryTree.bottom []).Intersecting q = ∅) := by
  refine ⟨rfl, fun x => rfl, fun q => ?_⟩
  simp [IntervalTree.Intersecting, intervalSearch, IntervalTree.Containing, intersecting]

/-- C9: queries are deterministic — two indexes built from the same input
list answer any `Containing` query with the same list and any
`Intersecting` query with the same set (the Go function returns that set
in unspecified map order, embedded here as the `Finset` itself). -/
theorem claim_C9_deterministic (intervals : List Interval) (t1 t2 : IntervalTree)
    (x : Int) (q : Interval)
    (h1 : NewIntervalTree intervals = some t1)
    (h2 : NewIntervalTree intervals = some t2) :
    t1.Containing x = t2.Containing x ∧ t1.Intersecting q = t2.Intersecting q := by
  rw [h1] at h2
  have ht := Option.some.inj h2
  subst ht
  exact ⟨rfl, rfl⟩

/-- Witness for C9 on the singleton index over `[1, 3]`. -/
theorem claim_C9_witness :
    (IntervalTree.mk
          (BinaryTree.node BinaryTree.bottom
            (elt.mk [Interval.mk 1 3 0] [Interval.mk 1 3 0] 3) BinaryTree.bottom)
          [Point.mk 1 [Interval.mk 1 3 0], Point.mk 3 [Interval.mk 1 3 0]]).Containing 2 =
        (IntervalTree.mk
          (BinaryTree.node BinaryTree.bottom
            (elt.mk [Interval.mk 1 3 0] [Interval.mk 1 3 0] 3) BinaryTree.bottom)
          [Point.mk 1 [Interval.mk 1 3 0], Point.mk 3 [Interval.mk 1 3 0]]).Containing 2 ∧
      (IntervalTree.mk
          (BinaryTree.node BinaryTree.bottom
            (elt.mk [Interval.mk 1 3 0] [Interval.mk 1 3 0] 3) BinaryTree.bottom)
          [Point.mk 1 [Interval.mk 1 3 0],
            Point.mk 3 [Interval.mk 1 3 0]]).Intersecting (Interval.mk 2 4 5) =
        (IntervalTree.mk
          (BinaryTree.node BinaryTree.bottom
            (elt.mk [Interval.mk 1 3 0] [Interval.mk 1 3 0] 3) BinaryTree.bottom)
          [Point.mk 1 [Interval.mk 1 3 0],
            Point.mk 3 [Interval.mk 1 3 0]]).Intersecting (Interval.mk 2 4 5) :=
  claim_C9_deterministic [Interval.mk 1 3 0]
    (IntervalTree.mk
      (BinaryTree.node BinaryTree.bottom
        (elt.mk [Interval.mk 1 3 0] [Interval.mk 1 3 0] 3) BinaryTree.bottom)
      [Point.mk 1 [Interval.mk 1 3 0], Point.mk 3 [Interval.mk 1 3 0]])
    (IntervalTree.mk
      (BinaryTree.node BinaryTree.bottom
        (elt.mk [Interval.mk 1 3 0] [Interval.mk 1 3 0] 3) BinaryTree.bottom)
      [Point.mk 1 [Interval.mk 1 3 0], Point.mk 3 [Interval.mk 1 3 0]])
    2 (Interval.mk 2 4 5) (by decide) (by decide)

/-- C10: for a valid pairwise-distinct input and any `x`, the degenerate
range query `Intersecting {x, x}` returns the same set of intervals as
`Containing x`: every interval with a boundary equal to `x` contains `x`,
so the point-index step adds nothing beyond the tree query. -/
theorem claim_C10_degenerate_range (intervals : List Interval) (t : IntervalTree)
    (x : Int) (n : Nat)
    (hval : ∀ j ∈ intervals, j.Start ≤ j.End) (hnd : intervals.Nodup)
    (hb : NewIntervalTree intervals = some t) :
    t.Intersecting (Interval.mk x x n) = (t.Containing x).toFinset := by
  ext i
  rw [List.mem_toFinset, mem_Intersecting hb, mem_Containing hb]
  dsimp only
  constructor
  · rintro ⟨hmem, hcase⟩
    have := hval i hmem
    exact ⟨hmem, by omega⟩
  · rintro ⟨hmem, h1', h2'⟩
    exact ⟨hmem, by omega⟩

/-- Witness for C10 on the singleton index over `[1, 3]` at `x = 2`. -/
theorem claim_C10_witness :
    (IntervalTree.mk
          (BinaryTree.node BinaryTree.bottom
            (elt.mk [Interval.mk 1 3 0] [Interval.mk 1 3 0] 3) BinaryTree.bottom)
          [Point.mk 1 [Interval.mk 1 3 0],
            Point.mk 3 [Interval.mk 1 3 0]]).Intersecting (Interval.mk 2 2 7) =
      ((IntervalTree.mk
          (BinaryTree.node BinaryTree.bottom
            (elt.mk [Interval.mk 1 3 0] [Interval.mk 1 3 0] 3) BinaryTree.bottom)
          [Point.mk 1 [Interval.mk 1 3 0],
            Point.mk 3 [Interval.mk 1 3 0]]).Containing 2).toFinset :=
  claim_C10_degenerate_range [Interval.mk 1 3 0]
    (IntervalTree.mk
      (BinaryTree.node BinaryTree.bottom
        (elt.mk [Interval.mk 1 3 0] [Interval.mk 1 3 0] 3) BinaryTree.bottom)
      [Point.mk 1 [Interval.mk 1 3 0], Point.mk 3 [Interval.mk 1 3 0]])
    2 7 (by decide) (by decide) (by decide)

end intervaltree
